import Mathlib

/-!
# Verification of the treetok multi-tokenizer core

A shallow embedding of the token-counting core of the `treetok` repository:
the count model (`TokenCount`), the approximate segmenter (`CtocTokenizer`),
the remote counter retry loop (`ClaudeTokenizer`), the resolver
(`resolve_tokenizers`), the executor (`tokenize_entries`,
`claude_tokenize_all`) and the aggregator (`accumulate_totals`),
together with theorems settling the specification's claims about them.

Machine integers (`usize`, `u16`) are modelled as `Nat`; none of the
operations involved can overflow in a way the claims depend on
(`usize` saturating subtraction is `Nat` subtraction).  Byte strings are
modelled as `List Nat` of byte values.  Fallible operations return
`Except TokenizeError`.
-/

deriving instance DecidableEq for Except

namespace Treetok

/-- Stable identifier for each supported tokenizer
(`src/crates/treetok/src/tokenize/mod.rs`, `TokenizerId`).
Variant order mirrors the source declaration order (Claude < Ctoc < O200k). -/
inductive TokenizerId where
  | Claude
  | Ctoc
  | O200k
deriving DecidableEq, Repr

/-- A token count that is either exact or an approximate range
(`src/crates/treetok/src/output/mod.rs`, `enum TokenCount`). -/
inductive TokenCount where
  /-- A precise count from an exact tokenizer. -/
  | Exact (n : Nat)
  /-- A `[lo, hi]` inclusive range from an approximate tokenizer. -/
  | Approx (lo hi : Nat)
deriving DecidableEq, Repr

namespace TokenCount

/-- `TokenCount::from_approx` (`src/crates/treetok/src/output/mod.rs`):
`lo = (count * 959 / 1000).saturating_sub(2)`,
`hi = (count * 1041).div_ceil(1000) + 2`.
Rust `usize` saturating subtraction is `Nat` subtraction, and
`a.div_ceil(b)` is `(a + b - 1) / b`. -/
def from_approx (count : Nat) : TokenCount :=
  Approx (count * 959 / 1000 - 2) ((count * 1041 + 999) / 1000 + 2)

/-- `TokenCount::add` (`src/crates/treetok/src/output/mod.rs`): accumulate
another count into `self`; same-variant counts add componentwise,
mismatched variants leave `self` unchanged (the `_ => {}` arm). -/
def add : TokenCount → TokenCount → TokenCount
  | Exact a, Exact b => Exact (a + b)
  | Approx alo ahi, Approx blo bhi => Approx (alo + blo) (ahi + bhi)
  | s, _ => s

end TokenCount

/-- Error taxonomy (`src/crates/treetok/src/tokenize/error.rs`,
`enum TokenizeError`). -/
inductive TokenizeError where
  | Init (msg : String)
  | NoApiKey
  | RateLimitExceeded
  | ApiError (status : Nat) (body : String)
  | Network (msg : String)
  | Parse (msg : String)
deriving DecidableEq, Repr

namespace CtocTokenizer

/-- `matchesHere p s` holds when the byte string `p` occurs at the start
of `s`: the pattern-occurrence primitive of the Aho-Corasick automaton
(external dependency of `src/crates/treetok/src/tokenize/local.rs`). -/
def matchesHere : List Nat → List Nat → Bool
  | [], _ => true
  | _ :: _, [] => false
  | a :: p, b :: s => a == b && matchesHere p s

/-- Lengths of all (nonempty) vocabulary patterns that occur at the start
of `s`.  The vocabulary entries are token byte strings, so only nonempty
patterns are meaningful matches. -/
def matchLens (vocab : List (List Nat)) (s : List Nat) : List Nat :=
  (vocab.filter (fun p => !p.isEmpty && matchesHere p s)).map List.length

/-- The length of the leftmost-longest automaton match starting exactly at
the head of `s` (`MatchKind::LeftmostLongest`: among matches with the same
start, the longest pattern wins), or `none` if no pattern matches there. -/
def bestAt (vocab : List (List Nat)) (s : List Nat) : Option Nat :=
  (matchLens vocab s).max?

/-- Maximum vocabulary sequence length `L`. -/
def maxLen (vocab : List (List Nat)) : Nat :=
  (vocab.map List.length).foldl max 0

/-- `CtocTokenizer::new` vocabulary decoding
(`src/crates/treetok/src/tokenize/local.rs`): a sequence of
`[length: u16 LE][token_bytes: u8 × length]` records, stopping at a
truncated record; `u16::from_le_bytes([b0, b1]) = b0 + 256 * b1`. -/
def parseVocab : List Nat → List (List Nat)
  | b0 :: b1 :: rest =>
    let len := b0 + 256 * b1
    if len ≤ rest.length then rest.take len :: parseVocab (rest.drop len)
    else []
  | _ => []
termination_by data => data.length
decreasing_by simp [List.length_drop]; omega

/-- The non-overlapping leftmost-longest match iterator
(`self.ac.find_iter(bytes)` of the external `aho_corasick` crate),
inlined over the byte list: scan positions left to right; at each position
not covered by the previous match, report the longest match starting
there, then resume the search at that match's end.  `skip` is the number
of bytes remaining inside the previously reported match; matches are
reported as `(start, length)` pairs. -/
def acScan (vocab : List (List Nat)) : List Nat → Nat → Nat → List (Nat × Nat)
  | [], _, _ => []
  | b :: rest, pos, skip =>
    match skip with
    | sk + 1 => acScan vocab rest (pos + 1) sk
    | 0 =>
      match bestAt vocab (b :: rest) with
      | some k => (pos, k) :: acScan vocab rest (pos + 1) (k - 1)
      | none => acScan vocab rest (pos + 1) 0

/-- One step of the `for mat in self.ac.find_iter(bytes)` accumulation in
`CtocTokenizer::count_tokens`: state is `(tokens, prev_end)`; each gap
byte between matches counts as one token and the match itself is one. -/
def countStep (acc : Nat × Nat) (m : Nat × Nat) : Nat × Nat :=
  (acc.1 + (m.1 - acc.2) + 1, m.1 + m.2)

/-- `CtocTokenizer::count_tokens`
(`src/crates/treetok/src/tokenize/local.rs`): fold the match iterator,
counting one token per match and one per gap byte, then count each
trailing unmatched byte as one token. -/
def count_tokens (vocab : List (List Nat)) (text : List Nat) : Nat :=
  let fin := (acScan vocab text 0 0).foldl countStep (0, 0)
  fin.1 + (text.length - fin.2)

/-- Helper: the token count produced by the scan, computed directly
without the `(tokens, prev_end)` accumulator. -/
def scanCount (vocab : List (List Nat)) : List Nat → Nat → Nat
  | [], _ => 0
  | b :: rest, skip =>
    match skip with
    | sk + 1 => scanCount vocab rest sk
    | 0 =>
      match bestAt vocab (b :: rest) with
      | some k => 1 + scanCount vocab rest (k - 1)
      | none => 1 + scanCount vocab rest 0

end CtocTokenizer

/-- Modelled from the spec: the dynamic-programming formulation of the
minimal-token segmentation (§4.1: each token is a vocabulary byte
sequence starting at the current position or a single unmatched byte;
`dp[0] = 0`, `dp[i+k] = min(dp[i+k], dp[i]+1)` for each vocabulary match
of length `k` at `i`, `dp[i+1] = min(dp[i+1], dp[i]+1)`, answer `dp[n]`).
`dpTable vocab s` is that table read over suffixes: entry `j` is the
minimum number of tokens covering `s.drop j`, so entry `0` is the answer
for `s` and the spec's forward array is this table reversed. -/
def dpTable (vocab : List (List Nat)) : List Nat → List Nat
  | [] => [0]
  | b :: rest =>
    let tbl := dpTable vocab rest
    let single := tbl.headD 0 + 1
    let best :=
      (CtocTokenizer.matchLens vocab (b :: rest)).foldl
        (fun acc k => min acc (tbl.getD (k - 1) 0 + 1)) single
    best :: tbl

/-- Modelled from the spec: the minimum number of tokens needed to cover
all bytes of `s` (the value `dp[n]` of the spec's dynamic program). -/
def dpMin (vocab : List (List Nat)) (s : List Nat) : Nat :=
  (dpTable vocab s).headD 0

namespace CtocTokenizer

theorem matchesHere_length {p s : List Nat} (h : matchesHere p s = true) :
    p.length ≤ s.length := by
  induction p generalizing s with
  | nil => simp
  | cons a p ih =>
    cases s with
    | nil => simp [matchesHere] at h
    | cons b s =>
      simp only [matchesHere, Bool.and_eq_true] at h
      simpa using ih h.2

theorem mem_matchLens {vocab : List (List Nat)} {s : List Nat} {k : Nat}
    (h : k ∈ matchLens vocab s) :
    ∃ p, p ∈ vocab ∧ p ≠ [] ∧ matchesHere p s = true ∧ p.length = k := by
  simp only [matchLens, List.mem_map, List.mem_filter, Bool.and_eq_true,
    Bool.not_eq_true', List.isEmpty_eq_false] at h
  obtain ⟨p, ⟨hp, hne, hm⟩, rfl⟩ := h
  exact ⟨p, hp, hne, hm, rfl⟩

theorem bestAt_mem {vocab : List (List Nat)} {s : List Nat} {k : Nat}
    (h : bestAt vocab s = some k) : k ∈ matchLens vocab s :=
  (List.max?_eq_some_iff'.1 h).1

theorem bestAt_spec {vocab : List (List Nat)} {s : List Nat} {k : Nat}
    (h : bestAt vocab s = some k) :
    ∃ p, p ∈ vocab ∧ p ≠ [] ∧ matchesHere p s = true ∧ p.length = k :=
  mem_matchLens (bestAt_mem h)

theorem bestAt_pos {vocab : List (List Nat)} {s : List Nat} {k : Nat}
    (h : bestAt vocab s = some k) : 1 ≤ k := by
  obtain ⟨p, _, hne, _, rfl⟩ := bestAt_spec h
  cases p with
  | nil => exact absurd rfl hne
  | cons a p => simp

theorem bestAt_le_len {vocab : List (List Nat)} {s : List Nat} {k : Nat}
    (h : bestAt vocab s = some k) : k ≤ s.length := by
  obtain ⟨p, _, _, hm, rfl⟩ := bestAt_spec h
  exact matchesHere_length hm

theorem init_le_foldl_max : ∀ (l : List Nat) (init : Nat), init ≤ l.foldl max init := by
  intro l
  induction l with
  | nil => simp
  | cons b l ih =>
    intro init
    exact le_trans (le_max_left init b) (ih (max init b))

theorem le_foldl_max {l : List Nat} {a : Nat} (h : a ∈ l) :
    ∀ init, a ≤ l.foldl max init := by
  induction l with
  | nil => simp at h
  | cons b l ih =>
    intro init
    rcases List.mem_cons.1 h with rfl | h
    · exact le_trans (le_max_right init a) (init_le_foldl_max l (max init a))
    · exact ih h (max init b)

theorem bestAt_le_maxLen {vocab : List (List Nat)} {s : List Nat} {k : Nat}
    (h : bestAt vocab s = some k) : k ≤ maxLen vocab := by
  obtain ⟨p, hp, _, _, rfl⟩ := bestAt_spec h
  exact le_foldl_max (List.mem_map_of_mem List.length hp) 0

theorem acScan_foldl (vocab : List (List Nat)) :
    ∀ (t : List Nat) (pos skip tk pe : Nat),
      (skip = 0 → pe ≤ pos) → (skip ≠ 0 → pe = pos + skip) →
      (((acScan vocab t pos skip).foldl countStep (tk, pe)).1
          + (pos + t.length - ((acScan vocab t pos skip).foldl countStep (tk, pe)).2))
        = tk + (pos - pe) + scanCount vocab t skip := by
  intro t
  induction t with
  | nil =>
    intro pos skip tk pe hpe0 hpe1
    cases skip with
    | zero =>
      have := hpe0 rfl
      simp only [acScan, List.foldl_nil, scanCount, List.length_nil]
      omega
    | succ sk =>
      have := hpe1 (Nat.succ_ne_zero sk)
      simp only [acScan, List.foldl_nil, scanCount, List.length_nil]
      omega
  | cons b rest ih =>
    intro pos skip tk pe hpe0 hpe1
    cases skip with
    | succ sk =>
      have hpe := hpe1 (Nat.succ_ne_zero sk)
      have hih := ih (pos + 1) sk tk pe (fun h => by omega) (fun h => by omega)
      simp only [acScan, scanCount, List.length_cons]
      omega
    | zero =>
      have hpe := hpe0 rfl
      cases hb : bestAt vocab (b :: rest) with
      | none =>
        have hih := ih (pos + 1) 0 tk pe (fun _ => by omega) (fun h => absurd rfl h)
        simp only [acScan, scanCount, hb, List.length_cons]
        omega
      | some k =>
        have hk1 : 1 ≤ k := bestAt_pos hb
        have hih := ih (pos + 1) (k - 1) (tk + (pos - pe) + 1) (pos + k)
          (fun h => by omega) (fun h => by omega)
        simp only [acScan, scanCount, hb, List.length_cons, List.foldl_cons, countStep]
        omega

theorem count_tokens_eq_scanCount (vocab : List (List Nat)) (s : List Nat) :
    count_tokens vocab s = scanCount vocab s 0 := by
  have h := acScan_foldl vocab s 0 0 0 0 (fun _ => le_rfl) (fun h => absurd rfl h)
  simp only [Nat.sub_zero, Nat.zero_add, Nat.add_zero] at h
  simpa [count_tokens] using h

theorem scanCount_le_length (vocab : List (List Nat)) :
    ∀ (t : List Nat) (skip : Nat), scanCount vocab t skip ≤ t.length := by
  intro t
  induction t with
  | nil => intro skip; simp [scanCount]
  | cons b rest ih =>
    intro skip
    cases skip with
    | succ sk =>
      simp only [scanCount, List.length_cons]
      exact le_trans (ih sk) (Nat.le_succ _)
    | zero =>
      cases hb : bestAt vocab (b :: rest) with
      | none =>
        have := ih 0
        simp only [scanCount, hb, List.length_cons]
        omega
      | some k =>
        have := ih (k - 1)
        simp only [scanCount, hb, List.length_cons]
        omega

theorem length_le_scanCount (vocab : List (List Nat)) (hL : 1 ≤ maxLen vocab) :
    ∀ (t : List Nat) (skip : Nat),
      t.length ≤ maxLen vocab * scanCount vocab t skip + skip := by
  intro t
  induction t with
  | nil => intro skip; simp
  | cons b rest ih =>
    intro skip
    cases skip with
    | succ sk =>
      have h := ih sk
      simp only [scanCount, List.length_cons]
      omega
    | zero =>
      cases hb : bestAt vocab (b :: rest) with
      | none =>
        have h := ih 0
        simp only [scanCount, hb, List.length_cons, Nat.add_zero] at h ⊢
        calc rest.length + 1 ≤ maxLen vocab * scanCount vocab rest 0 + 1 := by omega
          _ ≤ maxLen vocab * scanCount vocab rest 0 + maxLen vocab := by omega
          _ = maxLen vocab * (1 + scanCount vocab rest 0) := by ring
      | some k =>
        have hkL : k ≤ maxLen vocab := bestAt_le_maxLen hb
        have h := ih (k - 1)
        simp only [scanCount, hb, List.length_cons, Nat.add_zero] at h ⊢
        calc rest.length + 1
            ≤ maxLen vocab * scanCount vocab rest (k - 1) + (k - 1) + 1 := by omega
          _ ≤ maxLen vocab * scanCount vocab rest (k - 1) + maxLen vocab := by omega
          _ = maxLen vocab * (1 + scanCount vocab rest (k - 1)) := by ring

theorem bestAt_none_of_no_occurrence {vocab : List (List Nat)} {s : List Nat}
    (h : ∀ p, p ∈ vocab → p ≠ [] → ∀ i, matchesHere p (s.drop i) = false) :
    ∀ i, bestAt vocab (s.drop i) = none := by
  intro i
  cases hb : bestAt vocab (s.drop i) with
  | none => rfl
  | some k =>
    obtain ⟨p, hp, hne, hm, _⟩ := bestAt_spec hb
    rw [h p hp hne i] at hm
    exact absurd hm (by simp)

theorem scanCount_eq_length (vocab : List (List Nat)) :
    ∀ (t : List Nat), (∀ i, bestAt vocab (t.drop i) = none) →
      scanCount vocab t 0 = t.length := by
  intro t
  induction t with
  | nil => intro _; simp [scanCount]
  | cons b rest ih =>
    intro h
    have h0 := h 0
    simp only [List.drop_zero] at h0
    simp only [scanCount, h0, List.length_cons]
    rw [ih (fun i => by simpa using h (i + 1))]
    omega

theorem scanCount_skip (vocab : List (List Nat)) :
    ∀ (t : List Nat) (sk : Nat), scanCount vocab t sk = scanCount vocab (t.drop sk) 0 := by
  intro t
  induction t with
  | nil => intro sk; simp [scanCount]
  | cons b rest ih =>
    intro sk
    cases sk with
    | zero => simp
    | succ sk' =>
      simp only [scanCount, List.drop_succ_cons]
      exact ih sk'

end CtocTokenizer

theorem foldl_min_le_init {f : Nat → Nat} :
    ∀ (l : List Nat) (init : Nat), l.foldl (fun acc k => min acc (f k)) init ≤ init := by
  intro l
  induction l with
  | nil => simp
  | cons a l ih =>
    intro init
    exact le_trans (ih (min init (f a))) (min_le_left _ _)

theorem foldl_min_le_of_mem {f : Nat → Nat} :
    ∀ {l : List Nat} {a : Nat}, a ∈ l → ∀ init,
      l.foldl (fun acc k => min acc (f k)) init ≤ f a := by
  intro l
  induction l with
  | nil => intro a h; simp at h
  | cons b l ih =>
    intro a ha init
    rcases List.mem_cons.1 ha with rfl | ha
    · exact le_trans (foldl_min_le_init l (min init (f a))) (min_le_right _ _)
    · exact ih ha _

theorem dpTable_getD (vocab : List (List Nat)) :
    ∀ (t : List Nat) (j : Nat), j ≤ t.length →
      (dpTable vocab t).getD j 0 = dpMin vocab (t.drop j) := by
  intro t
  induction t with
  | nil =>
    intro j hj
    have : j = 0 := by simpa using hj
    subst this
    simp [dpTable, dpMin]
  | cons b rest ih =>
    intro j hj
    cases j with
    | zero => simp [dpTable, dpMin]
    | succ j' =>
      simp only [dpTable, List.getD_cons_succ, List.drop_succ_cons]
      exact ih j' (by simpa using hj)

theorem dpMin_le_single (vocab : List (List Nat)) (b : Nat) (rest : List Nat) :
    dpMin vocab (b :: rest) ≤ dpMin vocab rest + 1 := by
  simp only [dpMin, dpTable, List.headD_cons]
  exact foldl_min_le_init _ _

theorem dpMin_le_match (vocab : List (List Nat)) {b : Nat} {rest : List Nat} {k : Nat}
    (hk : k ∈ CtocTokenizer.matchLens vocab (b :: rest)) (hkle : k ≤ rest.length + 1) :
    dpMin vocab (b :: rest) ≤ dpMin vocab (rest.drop (k - 1)) + 1 := by
  simp only [dpMin, dpTable, List.headD_cons]
  have h := foldl_min_le_of_mem (f := fun k => (dpTable vocab rest).getD (k - 1) 0 + 1)
      hk ((dpTable vocab rest).headD 0 + 1)
  rwa [dpTable_getD vocab rest (k - 1) (by omega)] at h

theorem dpMin_le_scanCount (vocab : List (List Nat)) :
    ∀ (t : List Nat), dpMin vocab t ≤ CtocTokenizer.scanCount vocab t 0 := by
  have main : ∀ (n : Nat) (t : List Nat), t.length ≤ n →
      dpMin vocab t ≤ CtocTokenizer.scanCount vocab t 0 := by
    intro n
    induction n with
    | zero =>
      intro t ht
      have : t = [] := List.length_eq_zero.1 (Nat.le_zero.1 ht)
      subst this
      simp [dpMin, dpTable, CtocTokenizer.scanCount]
    | succ n ihn =>
      intro t ht
      cases t with
      | nil => simp [dpMin, dpTable, CtocTokenizer.scanCount]
      | cons b rest =>
        simp only [List.length_cons] at ht
        cases hb : CtocTokenizer.bestAt vocab (b :: rest) with
        | none =>
          simp only [CtocTokenizer.scanCount, hb]
          have h1 := dpMin_le_single vocab b rest
          have h2 := ihn rest (by omega)
          omega
        | some k =>
          simp only [CtocTokenizer.scanCount, hb]
          have hk1 := CtocTokenizer.bestAt_pos hb
          have hkle := CtocTokenizer.bestAt_le_len hb
          simp only [List.length_cons] at hkle
          have h1 := dpMin_le_match vocab (CtocTokenizer.bestAt_mem hb) hkle
          have h2 := ihn (rest.drop (k - 1)) (by simp [List.length_drop]; omega)
          have h3 := CtocTokenizer.scanCount_skip vocab rest (k - 1)
          omega
  exact fun t => main t.length t le_rfl

/-! ## Remote counter (`src/crates/treetok/src/tokenize/remote.rs`) -/

/-- One HTTP exchange as seen by `ClaudeTokenizer::count_tokens`: either a
response with a status code and body text, or a transport failure
(`reqwest` send error). -/
inductive HttpResp where
  | resp (status : Nat) (body : String)
  | netErr (msg : String)
deriving DecidableEq, Repr

/-- `MAX_RETRIES` (`src/crates/treetok/src/tokenize/remote.rs`). -/
def MAX_RETRIES : Nat := 3

/-- The characters of the canonical success-body shape up to the count:
`\x7b"input_tokens": `. -/
def ctHead : List Char :=
  [Char.ofNat 123, '\"', 'i', 'n', 'p', 'u', 't', '_', 't', 'o', 'k', 'e',
    'n', 's', '\"', ':', ' ']

/-- Parse the decimal digits of the count followed by the closing
`\x7d` at the end of the body. -/
def parseNum : List Char → Nat → Bool → Option Nat
  | [], _, _ => none
  | c :: rest, acc, seen =>
    if c.isDigit then parseNum rest (acc * 10 + (c.toNat - 48)) true
    else if c = Char.ofNat 125 then
      if rest.isEmpty && seen then some acc else none
    else none

/-- Modelled stand-in for the `serde_json` deserialization of
`CountTokensResponse`: extracts the integer of a success body of the
canonical shape `\x7b"input_tokens": <digits>\x7d`; any other body is a
parse failure. -/
def parseInputTokens (s : String) : Option Nat :=
  if ctHead.isPrefixOf s.data then parseNum (s.data.drop 17) 0 false
  else none

/-- The retry loop of `ClaudeTokenizer::count_tokens`
(`for attempt in 0..MAX_RETRIES`), driven by the oracle `resps` giving the
HTTP exchange of each attempt.  Returns the result together with the list
of backoff sleeps performed (`1 << attempt` seconds on each HTTP 429).
`remaining` is the number of loop iterations left; falling off the loop
yields `RateLimitExceeded`. -/
def claudeLoop (resps : Nat → HttpResp) :
    Nat → Nat → List Nat → Except TokenizeError Nat × List Nat
  | _, 0, sleeps => (.error .RateLimitExceeded, sleeps)
  | attempt, remaining + 1, sleeps =>
    match resps attempt with
    | .netErr msg => (.error (.Network msg), sleeps)
    | .resp status body =>
      if status = 200 then
        match parseInputTokens body with
        | some n => (.ok n, sleeps)
        | none => (.error (.Parse body), sleeps)
      else if status = 429 then
        claudeLoop resps (attempt + 1) remaining (sleeps ++ [2 ^ attempt])
      else
        (.error (.ApiError status body), sleeps)

namespace ClaudeTokenizer

/-- `ClaudeTokenizer::count_tokens`: run up to `MAX_RETRIES` attempts
against the response oracle, starting at attempt 0 with no sleeps. -/
def count_tokens (resps : Nat → HttpResp) : Except TokenizeError Nat × List Nat :=
  claudeLoop resps 0 MAX_RETRIES []

/-- A response that the retry loop treats as rate-limited. -/
def is429 (r : HttpResp) : Prop := ∃ body, r = .resp 429 body

theorem pow_range_shift (attempt j : Nat) :
    (List.range (j + 1)).map (fun i => 2 ^ (attempt + i))
      = 2 ^ attempt :: (List.range j).map (fun i => 2 ^ (attempt + 1 + i)) := by
  induction j generalizing attempt with
  | zero => simp [List.range_succ]
  | succ j ih =>
    rw [show j + 1 + 1 = (j + 1) + 1 from rfl, List.range_succ, List.map_append,
      ih attempt, List.range_succ, List.map_append]
    simp only [List.map_cons, List.map_nil, List.cons_append]
    rw [show attempt + (j + 1) = attempt + 1 + j from by omega]

theorem claudeLoop_skip429 (resps : Nat → HttpResp) :
    ∀ (j attempt remaining : Nat) (sleeps : List Nat),
      (∀ i, i < j → is429 (resps (attempt + i))) →
      claudeLoop resps attempt (j + remaining) sleeps
        = claudeLoop resps (attempt + j) remaining
            (sleeps ++ (List.range j).map (fun i => 2 ^ (attempt + i))) := by
  intro j
  induction j with
  | zero => intro attempt remaining sleeps _; simp
  | succ j ih =>
    intro attempt remaining sleeps h429
    obtain ⟨body, hbody⟩ := h429 0 (Nat.succ_pos j)
    simp only [Nat.add_zero] at hbody
    rw [show j + 1 + remaining = (j + remaining) + 1 from by omega]
    simp only [claudeLoop, hbody]
    rw [if_neg (by decide), if_pos trivial]
    rw [ih (attempt + 1) remaining (sleeps ++ [2 ^ attempt])
      (fun i hi => by
        have := h429 (i + 1) (by omega)
        rwa [show attempt + (i + 1) = attempt + 1 + i from by omega] at this)]
    have harg : attempt + 1 + j = attempt + (j + 1) := by omega
    have hsl : (sleeps ++ [2 ^ attempt])
          ++ (List.range j).map (fun i => 2 ^ (attempt + 1 + i))
        = sleeps ++ (List.range (j + 1)).map (fun i => 2 ^ (attempt + i)) := by
      rw [pow_range_shift, List.append_assoc, List.singleton_append]
    rw [harg, hsl]

end ClaudeTokenizer

/-! ## Resolver (`src/crates/treetok/src/tokenize/resolve.rs`) -/

/-- The concrete local tokenizers the resolver can construct.
`O200kTokenizer::new()` loads a compile-time-embedded BPE vocabulary via
the external `tiktoken_rs` crate and deterministically succeeds on it, so
its construction is modelled as infallible. -/
inductive LocalTok where
  | o200k
  | ctoc
deriving DecidableEq, Repr

/-- `ResolvedTokenizers`: the ordered local counters plus the optional
Claude API counter (carrying its key). -/
structure ResolvedTokenizers where
  locals : List LocalTok
  claude : Option String
deriving DecidableEq, Repr

/-- `ResolvedTokenizers::count`: total number of active tokenizers. -/
def ResolvedTokenizers.count (r : ResolvedTokenizers) : Nat :=
  r.locals.length + (if r.claude.isSome then 1 else 0)

/-- One iteration of the explicit-mode `for name in explicit` loop of
`resolve_tokenizers`, over the state (locals so far, claude so far):
known local keys push a counter, `"claude"` is skipped when offline,
errors with `NoApiKey` when no key is available, and otherwise activates
the remote counter; unknown keys warn and are skipped. -/
def resolveStep (offline : Bool) (api_key : Option String)
    (st : List LocalTok × Option String) (name : String) :
    Except TokenizeError (List LocalTok × Option String) :=
  if name = "o200k" then .ok (st.1 ++ [.o200k], st.2)
  else if name = "ctoc" then .ok (st.1 ++ [.ctoc], st.2)
  else if name = "claude" then
    match offline, api_key with
    | true, _ => .ok st
    | false, some key => .ok (st.1, some key)
    | false, none => .error .NoApiKey
  else .ok st

/-- The explicit-mode loop of `resolve_tokenizers`, processing requested
keys in order and stopping at the first fatal error. -/
def resolveLoop (offline : Bool) (api_key : Option String) :
    List String → List LocalTok × Option String →
      Except TokenizeError (List LocalTok × Option String)
  | [], st => .ok st
  | name :: rest, st =>
    match resolveStep offline api_key st name with
    | .ok st' => resolveLoop offline api_key rest st'
    | .error e => .error e

/-- `resolve_tokenizers` (`src/crates/treetok/src/tokenize/resolve.rs`).
Auto mode (empty explicit list): always o200k; Claude only when online
with a key; ctoc appended whenever Claude is inactive.  Explicit mode:
run the loop, then fail with `Init` when no counter was constructed. -/
def resolve_tokenizers (explicit : List String) (offline : Bool)
    (api_key : Option String) : Except TokenizeError ResolvedTokenizers :=
  if explicit.isEmpty then
    let claude : Option String :=
      match offline, api_key with
      | false, some key => some key
      | false, none => none
      | true, _ => none
    let locals : List LocalTok :=
      if claude.isNone then [.o200k, .ctoc] else [.o200k]
    .ok ⟨locals, claude⟩
  else
    match resolveLoop offline api_key explicit ([], none) with
    | .error e => .error e
    | .ok (locals, claude) =>
      if locals.isEmpty && claude.isNone then
        .error (.Init "no valid tokenizers available")
      else
        .ok ⟨locals, claude⟩

/-! ## Aggregator (`src/crates/treetok/src/output/mod.rs`) -/

/-- The per-`TokenizerId` count mapping of a `FileResult`
(`BTreeMap<TokenizerId, TokenCount>` over the closed three-key domain),
as one optional count per key. -/
structure TokMap where
  claude : Option TokenCount
  ctoc : Option TokenCount
  o200k : Option TokenCount
deriving DecidableEq, Repr

namespace TokMap

/-- The empty mapping. -/
def empty : TokMap := ⟨none, none, none⟩

/-- Mapping lookup. -/
def get (m : TokMap) : TokenizerId → Option TokenCount
  | .Claude => m.claude
  | .Ctoc => m.ctoc
  | .O200k => m.o200k

/-- `BTreeMap::insert`: set the entry of one key. -/
def insert (m : TokMap) (id : TokenizerId) (v : TokenCount) : TokMap :=
  match id with
  | .Claude => { m with claude := some v }
  | .Ctoc => { m with ctoc := some v }
  | .O200k => { m with o200k := some v }

theorem get_insert_self (m : TokMap) (id : TokenizerId) (v : TokenCount) :
    (m.insert id v).get id = some v := by
  cases id <;> rfl

theorem get_insert_ne (m : TokMap) (id id' : TokenizerId) (v : TokenCount)
    (h : id' ≠ id) : (m.insert id v).get id' = m.get id' := by
  cases id <;> cases id' <;> first | rfl | exact absurd rfl h

theorem get_empty (id : TokenizerId) : TokMap.empty.get id = none := by
  cases id <;> rfl

theorem ext_get {m m' : TokMap} (h : ∀ id, m.get id = m'.get id) : m = m' := by
  obtain ⟨a, b, c⟩ := m
  obtain ⟨a', b', c'⟩ := m'
  have h1 := h .Claude
  have h2 := h .Ctoc
  have h3 := h .O200k
  simp only [get] at h1 h2 h3
  subst h1 h2 h3
  rfl

end TokMap

/-- `accumulate_totals`'s per-key combining step: an occupied totals entry
absorbs the new count via `TokenCount::add`, a vacant entry is seeded with
the (cloned) count, and keys absent from the file's mapping leave the
totals entry alone. -/
def combineOpt : Option TokenCount → Option TokenCount → Option TokenCount
  | some t, some c => some (t.add c)
  | some t, none => some t
  | none, some c => some c
  | none, none => none

theorem combineOpt_none_left (o : Option TokenCount) : combineOpt none o = o := by
  cases o <;> rfl

/-- Fold `combineOpt` over one file's entry for a fixed key. -/
def accEntry (totals tokens : TokMap) : TokMap :=
  { claude := combineOpt totals.claude tokens.claude
    ctoc := combineOpt totals.ctoc tokens.ctoc
    o200k := combineOpt totals.o200k tokens.o200k }

theorem accEntry_get (totals tokens : TokMap) (id : TokenizerId) :
    (accEntry totals tokens).get id = combineOpt (totals.get id) (tokens.get id) := by
  cases id <;> rfl

/-! ## File model (`src/crates/treetok/src/walk.rs`,
`src/crates/treetok/src/output/mod.rs`) -/

/-- Classification of a file's content type (`walk::FileKind`). -/
inductive FileKind where
  | Text
  | Binary
  | TooLarge
  | Error (msg : String)
deriving DecidableEq, Repr

/-- Whether a classification is `Text` (the `matches!(e.kind, Text)`
filter of Phase 2). -/
def FileKind.isText : FileKind → Bool
  | .Text => true
  | _ => false

/-- A file discovered by the walker (`walk::FileEntry`).  The absolute
path is used only for diagnostics and is omitted; UTF-8 content is
modelled as its byte sequence, present only for `Text` files. -/
structure FileEntry where
  rel_path : String
  kind : FileKind
  content : Option (List Nat)
deriving DecidableEq, Repr

/-- A per-file result (`output::FileResult`). -/
structure FileResult where
  rel_path : String
  kind : FileKind
  tokens : TokMap
deriving DecidableEq, Repr

/-- `accumulate_totals` (`src/crates/treetok/src/output/mod.rs`): fold
every present tokenizer entry of every file into the running totals;
occupied totals entries absorb via `TokenCount::add`, vacant entries are
seeded with the first count encountered. -/
def accumulate_totals (entries : List FileResult) (totals : TokMap) : TokMap :=
  entries.foldl (fun acc e => accEntry acc e.tokens) totals

/-- The variant of a `TokenCount` (the `Exact`/`Approx` tag). -/
inductive TCVariant where
  | exact
  | approx
deriving DecidableEq, Repr

/-- Variant tag of a count. -/
def TokenCount.variant : TokenCount → TCVariant
  | .Exact _ => .exact
  | .Approx _ _ => .approx

/-- `okVar v o`: if the optional count is present, its variant is `v`. -/
def okVar (v : TCVariant) : Option TokenCount → Prop
  | none => True
  | some c => c.variant = v

theorem TokenCount.add_comm_same {c c' : TokenCount}
    (h : c.variant = c'.variant) : c.add c' = c'.add c := by
  cases c <;> cases c' <;> simp [TokenCount.variant] at h <;>
    simp [TokenCount.add] <;> omega

theorem TokenCount.add_right_comm_same (t : TokenCount) {c c' : TokenCount}
    (h : c.variant = c'.variant) : (t.add c).add c' = (t.add c').add c := by
  cases t <;> cases c <;> cases c' <;> simp [TokenCount.variant] at h <;>
    simp [TokenCount.add] <;> omega

theorem combineOpt_swap {v : TCVariant} {x y : Option TokenCount}
    (hx : okVar v x) (hy : okVar v y) (z : Option TokenCount) :
    combineOpt (combineOpt z x) y = combineOpt (combineOpt z y) x := by
  cases x with
  | none => cases y <;> cases z <;> rfl
  | some cx =>
    cases y with
    | none => cases z <;> rfl
    | some cy =>
      have hx' : cx.variant = v := hx
      have hy' : cy.variant = v := hy
      have hv : cx.variant = cy.variant := hx'.trans hy'.symm
      cases z with
      | none => simp [combineOpt, TokenCount.add_comm_same hv]
      | some t => simp [combineOpt, TokenCount.add_right_comm_same t hv]

theorem accumulate_totals_get (entries : List FileResult) :
    ∀ (totals : TokMap) (id : TokenizerId),
      (accumulate_totals entries totals).get id
        = (entries.map (fun e => e.tokens.get id)).foldl combineOpt (totals.get id) := by
  induction entries with
  | nil => intro totals id; rfl
  | cons e rest ih =>
    intro totals id
    simp only [accumulate_totals, List.foldl_cons, List.map_cons]
    rw [show List.foldl (fun acc e => accEntry acc e.tokens) (accEntry totals e.tokens) rest
        = accumulate_totals rest (accEntry totals e.tokens) from rfl]
    rw [ih (accEntry totals e.tokens) id, accEntry_get]

theorem accumulate_totals_perm {entries entries' : List FileResult}
    (hp : entries.Perm entries')
    (hok : ∀ id : TokenizerId, ∃ v, ∀ e ∈ entries, okVar v (e.tokens.get id))
    (totals : TokMap) :
    accumulate_totals entries totals = accumulate_totals entries' totals := by
  apply TokMap.ext_get
  intro id
  rw [accumulate_totals_get, accumulate_totals_get]
  obtain ⟨v, hv⟩ := hok id
  refine (hp.map _).foldl_eq' ?_ _
  intro x hx y hy z
  obtain ⟨ex, hex, rfl⟩ := List.mem_map.1 hx
  obtain ⟨ey, hey, rfl⟩ := List.mem_map.1 hy
  exact combineOpt_swap (hv ex hex) (hv ey hey) z

/-! ## Executor (`src/crates/treetok/src/tokenize/run.rs`) -/

/-- An active local counter as the executor sees it: a `dyn Tokenizer`
with its identity, approximateness flag and (fallible) counting
function. -/
structure LocalCounter where
  id : TokenizerId
  is_approximate : Bool
  count_tokens : List Nat → Except TokenizeError Nat

/-- `entry.content.as_deref().unwrap_or("")`: the content a counter is
invoked with, substituting the empty string when absent. -/
def contentOf (e : FileEntry) : List Nat :=
  e.content.getD []

/-- The Phase-1 inner loop `for tok in &tokenizers.local`: successful
counts are inserted under the counter's id, `Exact` or via `from_approx`
according to its approximateness; failures emit a diagnostic and leave the
entry absent. -/
def phase1Fold (locals : List LocalCounter) (content : List Nat) (m : TokMap) : TokMap :=
  locals.foldl
    (fun m tok =>
      match tok.count_tokens content with
      | .ok n =>
        m.insert tok.id (if tok.is_approximate then .from_approx n else .Exact n)
      | .error _ => m)
    m

/-- The Phase-1 per-file mapping, starting from the empty `BTreeMap`. -/
def phase1Counts (locals : List LocalCounter) (content : List Nat) : TokMap :=
  phase1Fold locals content TokMap.empty

/-- Phase 1 of `tokenize_entries` for one entry: non-`Text` entries get an
empty count mapping and the same classification (any error message
unchanged); `Text` entries run every active local counter. -/
def phase1Entry (locals : List LocalCounter) (e : FileEntry) : FileResult :=
  match e.kind with
  | .Binary => ⟨e.rel_path, .Binary, .empty⟩
  | .TooLarge => ⟨e.rel_path, .TooLarge, .empty⟩
  | .Error msg => ⟨e.rel_path, .Error msg, .empty⟩
  | .Text => ⟨e.rel_path, .Text, phase1Counts locals (contentOf e)⟩

/-- The `text_indices` collection of `claude_tokenize_all`: indices of the
entries classified `Text`, in order. -/
def textIndices (entries : List FileEntry) : List Nat :=
  (List.range entries.length).filter
    (fun i => match entries[i]? with
      | some e => e.kind.isText
      | none => false)

/-- The remote result for one index: `claude.count_tokens` invoked on
`entries[idx].content.as_deref().unwrap_or("")`, abstracted over the
request outcome function `remote`. -/
def remoteRes (entries : List FileEntry)
    (remote : List Nat → Except TokenizeError Nat) (idx : Nat) :
    Except TokenizeError Nat :=
  remote (match entries[idx]? with
    | some e => contentOf e
    | none => [])

/-- The map-back step of `claude_tokenize_all` for one completed request:
on success insert `TokenCount::Exact(n)` under the Claude identity into
the `FileResult` at the request's original index; on failure emit a
diagnostic and leave the results untouched. -/
def writeSlot (rs : List FileResult) (idx : Nat)
    (res : Except TokenizeError Nat) : List FileResult :=
  match res with
  | .error _ => rs
  | .ok n =>
    match rs[idx]? with
    | none => rs
    | some fr => rs.set idx { fr with tokens := fr.tokens.insert .Claude (.Exact n) }

/-- The `for (idx, result) in counts` write-back loop of
`claude_tokenize_all`, over the completed requests in completion order. -/
def applyRemote (rs : List FileResult)
    (counts : List (Nat × Except TokenizeError Nat)) : List FileResult :=
  counts.foldl (fun rs c => writeSlot rs c.1 c.2) rs

/-- `claude_tokenize_all` (`src/crates/treetok/src/tokenize/run.rs`):
issue one remote request per `Text` index and write each success back into
that index's pre-created `FileResult`.  The `buffer_unordered(20)` stream
yields the `(idx, result)` pairs in an arbitrary completion order, modelled
by the `order` list (a permutation of `textIndices entries`); each pair's
result is determined by its index. -/
def claude_tokenize_all (entries : List FileEntry)
    (remote : List Nat → Except TokenizeError Nat) (order : List Nat)
    (results : List FileResult) : List FileResult :=
  applyRemote results (order.map (fun idx => (idx, remoteRes entries remote idx)))

/-- `tokenize_entries` (`src/crates/treetok/src/tokenize/run.rs`):
Phase 1 maps every entry to a `FileResult` in input order; Phase 2 runs
only when a Claude tokenizer is active, with `claudeSpec` carrying the
request outcome function and the completion order of the concurrent
stream. -/
def tokenize_entries (locals : List LocalCounter)
    (claudeSpec : Option ((List Nat → Except TokenizeError Nat) × List Nat))
    (entries : List FileEntry) : List FileResult :=
  let results := entries.map (phase1Entry locals)
  match claudeSpec with
  | none => results
  | some (remote, order) => claude_tokenize_all entries remote order results

theorem writeSlot_length (rs : List FileResult) (idx : Nat)
    (res : Except TokenizeError Nat) : (writeSlot rs idx res).length = rs.length := by
  cases res with
  | error e => rfl
  | ok n =>
    simp only [writeSlot]
    cases rs[idx]? <;> simp

theorem applyRemote_length (cs : List (Nat × Except TokenizeError Nat)) :
    ∀ (rs : List FileResult), (applyRemote rs cs).length = rs.length := by
  induction cs with
  | nil => intro rs; rfl
  | cons c cs ih =>
    intro rs
    simp only [applyRemote, List.foldl_cons]
    rw [show List.foldl (fun rs c => writeSlot rs c.1 c.2) (writeSlot rs c.1 c.2) cs
        = applyRemote (writeSlot rs c.1 c.2) cs from rfl]
    rw [ih, writeSlot_length]

theorem writeSlot_get_ne (rs : List FileResult) (idx : Nat)
    (res : Except TokenizeError Nat) {j : Nat} (h : j ≠ idx) :
    (writeSlot rs idx res)[j]? = rs[j]? := by
  cases res with
  | error e => rfl
  | ok n =>
    simp only [writeSlot]
    cases rs[idx]? with
    | none => rfl
    | some fr => exact List.getElem?_set_ne (Ne.symm h)

theorem writeSlot_get_self (rs : List FileResult) (idx : Nat)
    (res : Except TokenizeError Nat) :
    (writeSlot rs idx res)[idx]?
      = match res, rs[idx]? with
        | .ok n, some fr =>
          some { fr with tokens := fr.tokens.insert .Claude (.Exact n) }
        | _, _ => rs[idx]? := by
  cases res with
  | error e => rfl
  | ok n =>
    simp only [writeSlot]
    cases hfr : rs[idx]? with
    | none => exact hfr
    | some fr =>
      have hlt : idx < rs.length := by
        by_contra hge
        rw [List.getElem?_eq_none_iff.2 (by omega)] at hfr
        exact absurd hfr (by simp)
      simp [List.getElem?_set_self hlt]

theorem writeSlot_comm (rs : List FileResult) {i j : Nat} (hij : i ≠ j)
    (r s : Except TokenizeError Nat) :
    writeSlot (writeSlot rs i r) j s = writeSlot (writeSlot rs j s) i r := by
  apply List.ext_getElem?
  intro k
  by_cases hki : k = i
  · subst hki
    rw [writeSlot_get_ne _ j s hij, writeSlot_get_self, writeSlot_get_self,
      writeSlot_get_ne _ j s hij]
  · by_cases hkj : k = j
    · subst hkj
      rw [writeSlot_get_self, writeSlot_get_ne _ i r hki,
        writeSlot_get_ne _ i r hki, writeSlot_get_self]
    · rw [writeSlot_get_ne _ j s hkj, writeSlot_get_ne _ i r hki,
        writeSlot_get_ne _ i r hki, writeSlot_get_ne _ j s hkj]

/-- The frame Phase-2 preserves on each slot: path and classification
unchanged, and every non-Claude tokenizer entry unchanged. -/
def framePres (a b : FileResult) : Prop :=
  b.rel_path = a.rel_path ∧ b.kind = a.kind ∧
    ∀ id, id ≠ TokenizerId.Claude → b.tokens.get id = a.tokens.get id

theorem framePres_refl (a : FileResult) : framePres a a :=
  ⟨rfl, rfl, fun _ _ => rfl⟩

theorem framePres_trans {a b c : FileResult} (h1 : framePres a b)
    (h2 : framePres b c) : framePres a c :=
  ⟨h2.1.trans h1.1, h2.2.1.trans h1.2.1,
    fun id hid => (h2.2.2 id hid).trans (h1.2.2 id hid)⟩

/-- Option-lifted slot frame: both absent, or both present and related. -/
def frameOpt : Option FileResult → Option FileResult → Prop
  | some a, some b => framePres a b
  | none, none => True
  | _, _ => False

theorem frameOpt_refl (o : Option FileResult) : frameOpt o o := by
  cases o with
  | none => trivial
  | some a => exact framePres_refl a

theorem frameOpt_trans {o₁ o₂ o₃ : Option FileResult} (h1 : frameOpt o₁ o₂)
    (h2 : frameOpt o₂ o₃) : frameOpt o₁ o₃ := by
  cases o₁ <;> cases o₂ <;> cases o₃ <;>
    first
      | trivial
      | exact h1.elim
      | exact h2.elim
      | exact framePres_trans h1 h2

theorem writeSlot_frame (rs : List FileResult) (idx : Nat)
    (res : Except TokenizeError Nat) (j : Nat) :
    frameOpt rs[j]? (writeSlot rs idx res)[j]? := by
  by_cases hj : j = idx
  · subst hj
    rw [writeSlot_get_self]
    cases res with
    | error e => exact frameOpt_refl _
    | ok n =>
      cases hfr : rs[j]? with
      | none => trivial
      | some fr =>
        refine ⟨rfl, rfl, fun id hid => ?_⟩
        exact TokMap.get_insert_ne fr.tokens .Claude id (.Exact n) hid
  · rw [writeSlot_get_ne _ idx res hj]
    exact frameOpt_refl _

theorem applyRemote_frame (cs : List (Nat × Except TokenizeError Nat)) :
    ∀ (rs : List FileResult) (j : Nat), frameOpt rs[j]? (applyRemote rs cs)[j]? := by
  induction cs with
  | nil => intro rs j; exact frameOpt_refl _
  | cons c cs ih =>
    intro rs j
    simp only [applyRemote, List.foldl_cons]
    exact frameOpt_trans (writeSlot_frame rs c.1 c.2 j) (ih (writeSlot rs c.1 c.2) j)

theorem applyRemote_get_of_not_mem (cs : List (Nat × Except TokenizeError Nat)) :
    ∀ (rs : List FileResult) (j : Nat), (∀ c ∈ cs, c.1 ≠ j) →
      (applyRemote rs cs)[j]? = rs[j]? := by
  induction cs with
  | nil => intro rs j _; rfl
  | cons c cs ih =>
    intro rs j h
    simp only [applyRemote, List.foldl_cons]
    rw [show List.foldl (fun rs c => writeSlot rs c.1 c.2) (writeSlot rs c.1 c.2) cs
        = applyRemote (writeSlot rs c.1 c.2) cs from rfl]
    rw [ih (writeSlot rs c.1 c.2) j (fun c' hc' => h c' (List.mem_cons_of_mem c hc'))]
    exact writeSlot_get_ne rs c.1 c.2 (fun hj => h c (List.mem_cons_self c cs) hj.symm)

theorem applyRemote_map_get {f : Nat → Except TokenizeError Nat} :
    ∀ {order : List Nat}, order.Nodup → ∀ {j : Nat}, j ∈ order →
      ∀ (rs : List FileResult),
        (applyRemote rs (order.map (fun i => (i, f i))))[j]?
          = (writeSlot rs j (f j))[j]? := by
  intro order
  induction order with
  | nil => intro _ j hj; simp at hj
  | cons i rest ih =>
    intro hnd j hj rs
    have hndr : rest.Nodup := (List.nodup_cons.1 hnd).2
    have hnm : i ∉ rest := (List.nodup_cons.1 hnd).1
    simp only [List.map_cons, applyRemote, List.foldl_cons]
    rw [show List.foldl (fun rs c => writeSlot rs c.1 c.2)
          (writeSlot rs i (f i)) (rest.map (fun i => (i, f i)))
        = applyRemote (writeSlot rs i (f i)) (rest.map (fun i => (i, f i))) from rfl]
    rcases List.mem_cons.1 hj with rfl | hjr
    · rw [applyRemote_get_of_not_mem _ _ _ (fun c hc => by
        obtain ⟨i', hi', rfl⟩ := List.mem_map.1 hc
        exact fun hh => hnm (hh ▸ hi'))]
    · have hji : j ≠ i := fun hh => hnm (hh ▸ hjr)
      rw [ih hndr hjr (writeSlot rs i (f i))]
      cases hres : f j with
      | error e =>
        simp only [writeSlot]
        exact writeSlot_get_ne rs i (f i) hji
      | ok n =>
        rw [writeSlot_get_self, writeSlot_get_self,
          writeSlot_get_ne rs i (f i) hji]

theorem applyRemote_map_perm {f : Nat → Except TokenizeError Nat}
    {order order' : List Nat} (hp : order.Perm order') (rs : List FileResult) :
    applyRemote rs (order.map (fun i => (i, f i)))
      = applyRemote rs (order'.map (fun i => (i, f i))) := by
  refine (hp.map _).foldl_eq' ?_ rs
  intro x hx y hy z
  obtain ⟨i, _, rfl⟩ := List.mem_map.1 hx
  obtain ⟨j, _, rfl⟩ := List.mem_map.1 hy
  by_cases hij : i = j
  · subst hij; rfl
  · exact writeSlot_comm z hij (f i) (f j)

theorem textIndices_nodup (entries : List FileEntry) : (textIndices entries).Nodup :=
  (List.nodup_range entries.length).filter _

theorem mem_textIndices {entries : List FileEntry} {j : Nat} :
    j ∈ textIndices entries
      ↔ ∃ e, entries[j]? = some e ∧ e.kind = .Text := by
  simp only [textIndices, List.mem_filter, List.mem_range]
  constructor
  · rintro ⟨hlt, hkind⟩
    cases he : entries[j]? with
    | none => rw [he] at hkind; simp at hkind
    | some e =>
      rw [he] at hkind
      simp only [] at hkind
      refine ⟨e, rfl, ?_⟩
      cases hk : e.kind <;> rw [hk] at hkind <;>
        first
          | rfl
          | simp [FileKind.isText] at hkind
  · rintro ⟨e, he, hkind⟩
    have hlt : j < entries.length := by
      by_contra hge
      rw [List.getElem?_eq_none_iff.2 (by omega)] at he
      exact absurd he (by simp)
    refine ⟨hlt, ?_⟩
    rw [he]
    simp only []
    rw [hkind]
    rfl

theorem phase1Fold_get_not_mem (content : List Nat) :
    ∀ (locals : List LocalCounter) (m : TokMap) (id : TokenizerId),
      id ∉ locals.map LocalCounter.id →
      (phase1Fold locals content m).get id = m.get id := by
  intro locals
  induction locals with
  | nil => intro m id _; rfl
  | cons t rest ih =>
    intro m id hid
    simp only [List.map_cons, List.mem_cons, not_or] at hid
    simp only [phase1Fold, List.foldl_cons]
    rw [show List.foldl _ _ rest = phase1Fold rest content
        (match t.count_tokens content with
          | .ok n => m.insert t.id (if t.is_approximate then .from_approx n else .Exact n)
          | .error _ => m) from rfl]
    rw [ih _ id hid.2]
    cases t.count_tokens content with
    | ok n => exact TokMap.get_insert_ne m t.id id _ hid.1
    | error e => rfl

theorem phase1Fold_get (content : List Nat) :
    ∀ (locals : List LocalCounter) (m : TokMap) (tok : LocalCounter),
      tok ∈ locals → (locals.map LocalCounter.id).Nodup →
      (phase1Fold locals content m).get tok.id
        = match tok.count_tokens content with
          | .ok n => some (if tok.is_approximate then .from_approx n else .Exact n)
          | .error _ => m.get tok.id := by
  intro locals
  induction locals with
  | nil => intro m tok htok; simp at htok
  | cons t rest ih =>
    intro m tok htok hnd
    simp only [List.map_cons, List.nodup_cons] at hnd
    simp only [phase1Fold, List.foldl_cons]
    rw [show List.foldl _ _ rest = phase1Fold rest content
        (match t.count_tokens content with
          | .ok n => m.insert t.id (if t.is_approximate then .from_approx n else .Exact n)
          | .error _ => m) from rfl]
    rcases List.mem_cons.1 htok with rfl | hmem
    · rw [phase1Fold_get_not_mem content rest _ tok.id hnd.1]
      cases tok.count_tokens content with
      | ok n => exact TokMap.get_insert_self m tok.id _
      | error e => rfl
    · have hne : t.id ≠ tok.id := by
        intro hh
        exact hnd.1 (hh ▸ List.mem_map_of_mem LocalCounter.id hmem)
      rw [ih _ tok hmem hnd.2]
      cases htc : tok.count_tokens content with
      | ok n => rfl
      | error e =>
        cases t.count_tokens content with
        | ok n' => exact TokMap.get_insert_ne m t.id tok.id _ (Ne.symm hne)
        | error e' => rfl

theorem phase1Fold_all_fail (content : List Nat) :
    ∀ (locals : List LocalCounter) (m : TokMap),
      (∀ tok ∈ locals, ∃ e, tok.count_tokens content = .error e) →
      phase1Fold locals content m = m := by
  intro locals
  induction locals with
  | nil => intro m _; rfl
  | cons t rest ih =>
    intro m hfail
    obtain ⟨e, he⟩ := hfail t (List.mem_cons_self t rest)
    simp only [phase1Fold, List.foldl_cons, he]
    exact ih m (fun tok htok => hfail tok (List.mem_cons_of_mem t htok))

/-! ## Claim theorems -/

/-- C6: for every non-negative integer `raw`, `TokenCount::from_approx raw`
yields `Approx lo hi` with `lo = max(0, floor(raw × 0.959) − 2)` and
`hi = ceil(raw × 1.041) + 2` (stated over `Int`, where `0.959 = 959/1000`
and `1.041 = 1041/1000` exactly); for all `n ≥ 2` it yields `lo ≤ hi` and
`hi − lo ≥ 4`; and the five specific values hold. -/
theorem C6_from_approx :
    (∀ raw : Nat, ∃ lo hi, TokenCount.from_approx raw = .Approx lo hi
        ∧ (lo : Int) = max 0 (959 * (raw : Int) / 1000 - 2)
        ∧ (hi : Int) = (1041 * (raw : Int) + 999) / 1000 + 2)
    ∧ (∀ n : Nat, 2 ≤ n → ∃ lo hi, TokenCount.from_approx n = .Approx lo hi
        ∧ lo ≤ hi ∧ 4 ≤ hi - lo)
    ∧ TokenCount.from_approx 1000 = .Approx 957 1043
    ∧ TokenCount.from_approx 100 = .Approx 93 107
    ∧ TokenCount.from_approx 10 = .Approx 7 13
    ∧ TokenCount.from_approx 1 = .Approx 0 4
    ∧ TokenCount.from_approx 0 = .Approx 0 2 := by
  refine ⟨?_, ?_, by decide, by decide, by decide, by decide, by decide⟩
  · intro raw
    refine ⟨raw * 959 / 1000 - 2, (raw * 1041 + 999) / 1000 + 2, rfl, ?_, ?_⟩
    · have h1 : ((raw * 959 / 1000 : Nat) : Int) = 959 * (raw : Int) / 1000 := by
        rw [Int.ofNat_ediv]
        push_cast
        ring_nf
      omega
    · have h1 : (((raw * 1041 + 999) / 1000 : Nat) : Int)
          = (1041 * (raw : Int) + 999) / 1000 := by
        rw [Int.ofNat_ediv]
        push_cast
        ring_nf
      omega
  · intro n hn
    have hA : n * 959 / 1000 ≤ n := Nat.div_le_of_le_mul (by omega)
    have hB : n + 1 ≤ (n * 1041 + 999) / 1000 := by
      rw [Nat.le_div_iff_mul_le (by norm_num)]
      omega
    exact ⟨n * 959 / 1000 - 2, (n * 1041 + 999) / 1000 + 2, rfl, by omega, by omega⟩

theorem C6_from_approx_witness :
    (2 ≤ (2 : Nat)) ∧ ∃ lo hi, TokenCount.from_approx 2 = .Approx lo hi
      ∧ lo ≤ hi ∧ 4 ≤ hi - lo :=
  ⟨by decide, C6_from_approx.2.1 2 (by decide)⟩

/-- C4: `TokenCount::add` (used by `accumulate_totals`) combines
same-variant counts componentwise (`Exact 100 + Exact 200 = Exact 300`,
`Approx (93,107) + Approx (189,211) = Approx (282,318)`); the fold seeds a
`TokenizerId`'s total with the first count encountered; combining
mismatched variants is a no-op leaving the accumulator unchanged; and for
every collection of `FileResult`s whose counts under each `TokenizerId`
share one variant, every permutation of the collection yields identical
totals. -/
theorem C4_accumulate_totals :
    (TokenCount.add (.Exact 100) (.Exact 200) = .Exact 300
      ∧ TokenCount.add (.Approx 93 107) (.Approx 189 211) = .Approx 282 318)
    ∧ (∀ e : FileResult, accumulate_totals [e] TokMap.empty = e.tokens)
    ∧ (∀ t c : TokenCount, t.variant ≠ c.variant → t.add c = t)
    ∧ (∀ entries entries' : List FileResult, entries.Perm entries' →
        (∀ id : TokenizerId, ∃ v, ∀ e ∈ entries, okVar v (e.tokens.get id)) →
        accumulate_totals entries TokMap.empty
          = accumulate_totals entries' TokMap.empty) := by
  refine ⟨⟨by decide, by decide⟩, ?_, ?_, ?_⟩
  · intro e
    apply TokMap.ext_get
    intro id
    rw [accumulate_totals_get]
    simp only [List.map_cons, List.map_nil, List.foldl_cons, List.foldl_nil,
      TokMap.get_empty]
    exact combineOpt_none_left _
  · intro t c h
    cases t <;> cases c <;> first | rfl | exact absurd rfl h
  · intro entries entries' hp hok
    exact accumulate_totals_perm hp hok _

theorem C4_accumulate_totals_witness :
    accumulate_totals
        [⟨"a.rs", .Text, ⟨some (.Exact 1), none, some (.Exact 10)⟩⟩,
         ⟨"b.rs", .Text, ⟨some (.Exact 2), none, some (.Exact 20)⟩⟩]
        TokMap.empty
      = accumulate_totals
        [⟨"b.rs", .Text, ⟨some (.Exact 2), none, some (.Exact 20)⟩⟩,
         ⟨"a.rs", .Text, ⟨some (.Exact 1), none, some (.Exact 10)⟩⟩]
        TokMap.empty :=
  C4_accumulate_totals.2.2.2 _ _ (by decide)
    (fun id => ⟨.exact, fun e he => by fin_cases he <;> cases id <;> trivial⟩)

/-- C2: in auto mode (empty explicit list), `resolve_tokenizers` always
includes the o200k exact local counter; includes the Claude remote counter
iff not offline and a credential is available; includes the ctoc
approximate counter iff the remote counter is not included; and it never
returns zero counters and never returns an error, for every combination of
the offline flag and optional credential. -/
theorem C2_resolve_auto :
    ∀ (offline : Bool) (api_key : Option String),
      ∃ r, resolve_tokenizers [] offline api_key = .ok r
        ∧ LocalTok.o200k ∈ r.locals
        ∧ (r.claude.isSome ↔ (offline = false ∧ api_key.isSome))
        ∧ (LocalTok.ctoc ∈ r.locals ↔ r.claude = none)
        ∧ 1 ≤ r.count := by
  intro offline api_key
  cases offline <;> cases api_key <;>
    exact ⟨_, rfl, by simp [ResolvedTokenizers.count]⟩

/-- C7: in explicit mode `resolve_tokenizers` processes keys in order:
unknown keys are skipped non-fatally; a Claude request while offline is
skipped non-fatally; a Claude request with no credential (online) fails
the whole resolution with `NoApiKey`; requesting only unrecognized keys
yields the `Init` "no valid tokenizers available" error; a valid key plus
an unrecognized key succeeds with only the valid counter active; and
requesting the same key twice constructs two counters. -/
theorem C7_resolve_explicit :
    (∀ (offline : Bool) (api_key : Option String)
        (st : List LocalTok × Option String) (name : String),
        name ≠ "o200k" → name ≠ "ctoc" → name ≠ "claude" →
        resolveStep offline api_key st name = .ok st)
    ∧ (∀ (api_key : Option String) (st : List LocalTok × Option String),
        resolveStep true api_key st "claude" = .ok st)
    ∧ (∀ (rest : List String) (st : List LocalTok × Option String),
        resolveLoop false none ("claude" :: rest) st = .error .NoApiKey)
    ∧ (∀ (names : List String) (offline : Bool) (api_key : Option String),
        names ≠ [] →
        (∀ n ∈ names, n ≠ "o200k" ∧ n ≠ "ctoc" ∧ n ≠ "claude") →
        resolve_tokenizers names offline api_key
          = .error (.Init "no valid tokenizers available"))
    ∧ resolve_tokenizers ["o200k", "zzz"] false none = .ok ⟨[.o200k], none⟩
    ∧ resolve_tokenizers ["ctoc", "ctoc"] false none
        = .ok ⟨[.ctoc, .ctoc], none⟩ := by
  have hstep : ∀ (offline : Bool) (api_key : Option String)
      (st : List LocalTok × Option String) (name : String),
      name ≠ "o200k" → name ≠ "ctoc" → name ≠ "claude" →
      resolveStep offline api_key st name = .ok st := by
    intro offline api_key st name h1 h2 h3
    simp [resolveStep, h1, h2, h3]
  have hloop : ∀ (names : List String) (offline : Bool) (api_key : Option String)
      (st : List LocalTok × Option String),
      (∀ n ∈ names, n ≠ "o200k" ∧ n ≠ "ctoc" ∧ n ≠ "claude") →
      resolveLoop offline api_key names st = .ok st := by
    intro names
    induction names with
    | nil => intro offline api_key st _; rfl
    | cons n rest ih =>
      intro offline api_key st h
      obtain ⟨h1, h2, h3⟩ := h n (List.mem_cons_self n rest)
      simp only [resolveLoop, hstep offline api_key st n h1 h2 h3]
      exact ih offline api_key st (fun n' hn' => h n' (List.mem_cons_of_mem n hn'))
  refine ⟨hstep, ?_, ?_, ?_, by rfl, by rfl⟩
  · intro api_key st
    rfl
  · intro rest st
    rfl
  · intro names offline api_key hne hunk
    cases names with
    | nil => exact absurd rfl hne
    | cons n rest =>
      simp only [resolve_tokenizers, List.isEmpty_cons, Bool.false_eq_true,
        if_false, hloop (n :: rest) offline api_key ([], none) hunk]
      rfl

theorem C7_resolve_explicit_witness :
    resolveStep false none ([], none) "zzz" = .ok ([], none)
      ∧ resolve_tokenizers ["zzz"] true none
          = .error (.Init "no valid tokenizers available") :=
  ⟨C7_resolve_explicit.1 false none ([], none) "zzz"
      (by decide) (by decide) (by decide),
    C7_resolve_explicit.2.2.2.1 ["zzz"] true none (by simp)
      (fun n hn => by
        fin_cases hn
        exact ⟨by decide, by decide, by decide⟩)⟩

/-- C5: the ctoc segmenter's `count_tokens` returns 0 on the empty text;
is deterministic; never exceeds the byte length `n`; is at least
`⌈n / L⌉` for `L` the maximum vocabulary sequence length; and counts
exactly `n` tokens on a text containing no vocabulary substring at all. -/
theorem C5_ctoc_contract :
    ∀ (vocab : List (List Nat)) (s : List Nat),
      CtocTokenizer.count_tokens vocab [] = 0
      ∧ (∀ s' : List Nat, s = s' →
          CtocTokenizer.count_tokens vocab s = CtocTokenizer.count_tokens vocab s')
      ∧ CtocTokenizer.count_tokens vocab s ≤ s.length
      ∧ (s.length + CtocTokenizer.maxLen vocab - 1) / CtocTokenizer.maxLen vocab
          ≤ CtocTokenizer.count_tokens vocab s
      ∧ ((∀ p, p ∈ vocab → p ≠ [] →
            ∀ i, CtocTokenizer.matchesHere p (s.drop i) = false) →
          CtocTokenizer.count_tokens vocab s = s.length) := by
  intro vocab s
  have hcs := CtocTokenizer.count_tokens_eq_scanCount vocab s
  refine ⟨rfl, fun s' h => h ▸ rfl, ?_, ?_, ?_⟩
  · rw [hcs]
    exact CtocTokenizer.scanCount_le_length vocab s 0
  · by_cases hL : CtocTokenizer.maxLen vocab = 0
    · simp [hL]
    · have h1 := CtocTokenizer.length_le_scanCount vocab (by omega) s 0
      rw [hcs, Nat.div_le_iff_le_mul_add_pred (by omega)]
      omega
  · intro h
    rw [hcs]
    exact CtocTokenizer.scanCount_eq_length vocab s
      (CtocTokenizer.bestAt_none_of_no_occurrence h)

theorem C5_ctoc_contract_witness :
    CtocTokenizer.count_tokens [[1, 2]] [3, 3] = ([3, 3] : List Nat).length :=
  (C5_ctoc_contract [[1, 2]] [3, 3]).2.2.2.2 (by
    intro p hp hne i
    fin_cases hp
    rcases i with _ | _ | i
    · decide
    · decide
    · rw [List.drop_eq_nil_of_le (by simp)]
      rfl)

/-- C1 counterexample: over the vocabulary decoded (by the
`CtocTokenizer::new` record format) from the table encoding the token byte
strings `[0,1]` and `[1,2,3]`, the leftmost-longest scan counts 3 tokens
on the text `[0,1,2,3]` (match `[0,1]`, then bytes `2` and `3`) while the
dynamic-programming minimum is 2 (byte `0`, then match `[1,2,3]`): the
greedy scan does not return the DP minimum for every vocabulary. -/
theorem C1_counterexample :
    CtocTokenizer.count_tokens
        (CtocTokenizer.parseVocab [2, 0, 0, 1, 3, 0, 1, 2, 3]) [0, 1, 2, 3] = 3
      ∧ dpMin (CtocTokenizer.parseVocab [2, 0, 0, 1, 3, 0, 1, 2, 3]) [0, 1, 2, 3] = 2
      ∧ CtocTokenizer.count_tokens
            (CtocTokenizer.parseVocab [2, 0, 0, 1, 3, 0, 1, 2, 3]) [0, 1, 2, 3]
          ≠ dpMin (CtocTokenizer.parseVocab [2, 0, 0, 1, 3, 0, 1, 2, 3])
              [0, 1, 2, 3] := by
  have h0 : CtocTokenizer.parseVocab [] = [] := by
    rw [CtocTokenizer.parseVocab.eq_def]
  have hv : CtocTokenizer.parseVocab [2, 0, 0, 1, 3, 0, 1, 2, 3]
      = [[0, 1], [1, 2, 3]] := by
    norm_num [CtocTokenizer.parseVocab, h0]
  refine ⟨?_, ?_, ?_⟩ <;> rw [hv] <;> decide

/-- C1 (amended): the leftmost-longest Aho-Corasick scan of
`CtocTokenizer::count_tokens` produces a valid segmentation, so its count
always lies between the dynamic-programming minimum and the byte length;
it does not equal the DP minimum for every vocabulary
(see the counterexample). -/
theorem C1_amended :
    ∀ (vocab : List (List Nat)) (s : List Nat),
      dpMin vocab s ≤ CtocTokenizer.count_tokens vocab s
      ∧ CtocTokenizer.count_tokens vocab s ≤ s.length := by
  intro vocab s
  rw [CtocTokenizer.count_tokens_eq_scanCount]
  exact ⟨dpMin_le_scanCount vocab s, CtocTokenizer.scanCount_le_length vocab s 0⟩

/-- C3: the remote counter returns `Ok` with the parsed `input_tokens` on
the first HTTP 200; sleeps `2^attempt` seconds on each HTTP 429 and
retries with at most 3 attempts in total before `RateLimitExceeded`
(sleeping `[1,2,4]`); fails immediately with `ApiError{status, body}` on
any other status; and the sequence 429, 429, 200 `{"input_tokens": 42}`
yields `Ok 42` after sleeps `[1,2]`, without exhausting the ceiling. -/
theorem C3_remote_retry :
    (∀ (resps : Nat → HttpResp) (k : Nat) (body : String) (n : Nat),
        k < 3 → (∀ i, i < k → ClaudeTokenizer.is429 (resps i)) →
        resps k = .resp 200 body → parseInputTokens body = some n →
        ClaudeTokenizer.count_tokens resps
          = (.ok n, (List.range k).map (fun i => 2 ^ i)))
    ∧ (∀ resps : Nat → HttpResp,
        (∀ i, i < 3 → ClaudeTokenizer.is429 (resps i)) →
        ClaudeTokenizer.count_tokens resps
          = (.error .RateLimitExceeded, [1, 2, 4]))
    ∧ (∀ (resps : Nat → HttpResp) (k status : Nat) (body : String),
        k < 3 → (∀ i, i < k → ClaudeTokenizer.is429 (resps i)) →
        resps k = .resp status body → status ≠ 200 → status ≠ 429 →
        ClaudeTokenizer.count_tokens resps
          = (.error (.ApiError status body), (List.range k).map (fun i => 2 ^ i)))
    ∧ ClaudeTokenizer.count_tokens
          (fun i => if i < 2 then .resp 429 ""
            else .resp 200 "\x7b\"input_tokens\": 42\x7d")
        = (.ok 42, [1, 2]) := by
  have hmain : ∀ (resps : Nat → HttpResp) (k : Nat), k < 3 →
      (∀ i, i < k → ClaudeTokenizer.is429 (resps i)) →
      ClaudeTokenizer.count_tokens resps
        = claudeLoop resps k (3 - k) ((List.range k).map (fun i => 2 ^ i)) := by
    intro resps k hk h429
    show claudeLoop resps 0 MAX_RETRIES [] = _
    rw [show MAX_RETRIES = k + (3 - k) from by unfold MAX_RETRIES; omega]
    rw [ClaudeTokenizer.claudeLoop_skip429 resps k 0 (3 - k) []
      (fun i hi => by simpa using h429 i hi)]
    simp
  refine ⟨?_, ?_, ?_, by decide⟩
  · intro resps k body n hk h429 hresp hparse
    rw [hmain resps k hk h429]
    obtain ⟨r, hr⟩ : ∃ r, 3 - k = r + 1 := ⟨2 - k, by omega⟩
    rw [hr]
    simp [claudeLoop, hresp, hparse]
  · intro resps h429
    show claudeLoop resps 0 MAX_RETRIES [] = _
    rw [show MAX_RETRIES = 3 + 0 from rfl]
    rw [ClaudeTokenizer.claudeLoop_skip429 resps 3 0 0 []
      (fun i hi => by simpa using h429 i hi)]
    simp [claudeLoop]
    decide
  · intro resps k status body hk h429 hresp h200 h429'
    rw [hmain resps k hk h429]
    obtain ⟨r, hr⟩ : ∃ r, 3 - k = r + 1 := ⟨2 - k, by omega⟩
    rw [hr]
    simp [claudeLoop, hresp, h200, h429']

theorem C3_remote_retry_witness :
    ClaudeTokenizer.count_tokens
        (fun i => if i < 2 then .resp 429 "r"
          else .resp 200 "\x7b\"input_tokens\": 7\x7d")
      = (.ok 7, (List.range 2).map (fun i => 2 ^ i)) :=
  C3_remote_retry.1 _ 2 "\x7b\"input_tokens\": 7\x7d" 7 (by decide)
    (fun i hi => by
      rcases i with _ | _ | i
      · exact ⟨"r", rfl⟩
      · exact ⟨"r", rfl⟩
      · omega)
    rfl (by decide)

/-- C8: `tokenize_entries` (Phase 1, no remote counter active) returns
exactly one `FileResult` per entry, in input order, with the entry's
`rel_path` and classification (error messages unchanged); non-`Text`
entries get an empty mapping; for `Text` entries each local counter that
succeeds contributes one entry under its id (`Exact` or `from_approx` by
its approximateness), a failing counter's entry is absent, and a file
whose every counter fails still appears with an empty mapping. -/
theorem C8_tokenize_entries :
    ∀ (locals : List LocalCounter) (entries : List FileEntry),
      (tokenize_entries locals none entries).length = entries.length
      ∧ (∀ (i : Nat) (e : FileEntry), entries[i]? = some e →
          ∃ r, (tokenize_entries locals none entries)[i]? = some r
            ∧ r.rel_path = e.rel_path
            ∧ r.kind = e.kind
            ∧ (e.kind ≠ .Text → r.tokens = TokMap.empty)
            ∧ (e.kind = .Text →
                ((locals.map LocalCounter.id).Nodup → ∀ tok ∈ locals,
                  (∀ n, tok.count_tokens (contentOf e) = .ok n →
                    r.tokens.get tok.id
                      = some (if tok.is_approximate then .from_approx n
                          else .Exact n))
                  ∧ (∀ err, tok.count_tokens (contentOf e) = .error err →
                      r.tokens.get tok.id = none))
                ∧ ((∀ tok ∈ locals, ∃ err,
                      tok.count_tokens (contentOf e) = .error err) →
                    r.tokens = TokMap.empty)))
      ∧ (∀ (remote : List Nat → Except TokenizeError Nat) (order : List Nat),
          order.Perm (textIndices entries) →
          (tokenize_entries locals (some (remote, order)) entries).length
              = entries.length
          ∧ ∀ (i : Nat) (e : FileEntry), entries[i]? = some e → e.kind ≠ .Text →
              (tokenize_entries locals (some (remote, order)) entries)[i]?
                = some (phase1Entry locals e)) := by
  intro locals entries
  have htok : tokenize_entries locals none entries
      = entries.map (phase1Entry locals) := rfl
  refine ⟨?_, ?_, ?_⟩
  case refine_3 =>
    intro remote order hperm
    have htok2 : tokenize_entries locals (some (remote, order)) entries
        = claude_tokenize_all entries remote order
            (entries.map (phase1Entry locals)) := rfl
    constructor
    · rw [htok2]
      rw [show claude_tokenize_all entries remote order
            (entries.map (phase1Entry locals))
          = applyRemote (entries.map (phase1Entry locals))
              (order.map (fun idx => (idx, remoteRes entries remote idx)))
        from rfl]
      rw [applyRemote_length, List.length_map]
    · intro i e he hkind
      have hni : i ∉ textIndices entries := by
        intro hmem
        obtain ⟨e', he', hk'⟩ := mem_textIndices.1 hmem
        rw [he] at he'
        cases he'
        exact hkind hk'
      have hno : i ∉ order := fun hmem => hni (hperm.mem_iff.1 hmem)
      rw [htok2]
      rw [show claude_tokenize_all entries remote order
            (entries.map (phase1Entry locals))
          = applyRemote (entries.map (phase1Entry locals))
              (order.map (fun idx => (idx, remoteRes entries remote idx)))
        from rfl]
      rw [applyRemote_get_of_not_mem _ _ i (fun c hc => by
        obtain ⟨i', hi', rfl⟩ := List.mem_map.1 hc
        exact fun hh => hno (hh ▸ hi'))]
      rw [List.getElem?_map, he]
      rfl
  · rw [htok, List.length_map]
  · intro i e he
    obtain ⟨rp, k, c⟩ := e
    refine ⟨phase1Entry locals ⟨rp, k, c⟩, ?_, ?_, ?_, ?_, ?_⟩
    · rw [htok, List.getElem?_map, he]
      rfl
    · cases k <;> rfl
    · cases k <;> rfl
    · intro hk
      cases k <;> first | exact absurd rfl hk | rfl
    · intro hk
      have hkT : k = .Text := hk
      subst hkT
      have hph : (phase1Entry locals ⟨rp, .Text, c⟩).tokens
          = phase1Fold locals (contentOf ⟨rp, .Text, c⟩) TokMap.empty := rfl
      constructor
      · intro hnd tok htokmem
        constructor
        · intro n hn
          rw [hph, phase1Fold_get _ locals TokMap.empty tok htokmem hnd, hn]
        · intro err herr
          rw [hph, phase1Fold_get _ locals TokMap.empty tok htokmem hnd,
            herr, TokMap.get_empty]
      · intro hfail
        rw [hph, phase1Fold_all_fail _ locals TokMap.empty hfail]

theorem C8_tokenize_entries_witness :
    ∃ r, (tokenize_entries
        [⟨.O200k, false, fun c => .ok c.length⟩,
         ⟨.Ctoc, true, fun _ => .error (.Init "boom")⟩]
        none
        [⟨"a.rs", .Text, some [5, 6]⟩, ⟨"b.bin", .Binary, none⟩])[0]?
      = some r ∧ r.tokens.get .O200k = some (.Exact 2)
        ∧ r.tokens.get .Ctoc = none := by
  obtain ⟨r, hr, _, _, _, htext⟩ :=
    (C8_tokenize_entries
      [⟨.O200k, false, fun c => .ok c.length⟩,
       ⟨.Ctoc, true, fun _ => .error (.Init "boom")⟩]
      [⟨"a.rs", .Text, some [5, 6]⟩, ⟨"b.bin", .Binary, none⟩]).2.1
      0 ⟨"a.rs", .Text, some [5, 6]⟩ rfl
  have h1 := ((htext rfl).1 (by decide)
      ⟨.O200k, false, fun c => .ok c.length⟩
      (List.mem_cons_self _ _)).1 2 rfl
  have h2 := ((htext rfl).1 (by decide)
      ⟨.Ctoc, true, fun _ => .error (.Init "boom")⟩
      (List.mem_cons_of_mem _ (List.mem_cons_self _ _))).2
      (.Init "boom") rfl
  exact ⟨r, hr, h1, h2⟩

/-- C9: when a remote counter is active, Phase 2 writes only the Claude
entry of results at `Text`-classified indices — each successful remote
count inserts `Exact n` under the Claude identity at that entry's
original index, a failed request leaves the slot untouched, every other
field and tokenizer entry is exactly as Phase 1 produced it — and the
final result set is the same for every completion order of the remote
requests. -/
theorem C9_phase2_frame :
    ∀ (entries : List FileEntry) (remote : List Nat → Except TokenizeError Nat)
      (order : List Nat) (results : List FileResult),
      order.Perm (textIndices entries) →
      (claude_tokenize_all entries remote order results).length = results.length
      ∧ (∀ (j : Nat) (r r' : FileResult), results[j]? = some r →
          (claude_tokenize_all entries remote order results)[j]? = some r' →
          r'.rel_path = r.rel_path ∧ r'.kind = r.kind
            ∧ ∀ id, id ≠ TokenizerId.Claude →
                r'.tokens.get id = r.tokens.get id)
      ∧ (∀ j, j ∉ textIndices entries →
          (claude_tokenize_all entries remote order results)[j]? = results[j]?)
      ∧ (∀ j, j ∈ textIndices entries →
          (∀ n, remoteRes entries remote j = .ok n →
            ∀ r, results[j]? = some r →
              (claude_tokenize_all entries remote order results)[j]?
                = some { r with tokens := r.tokens.insert .Claude (.Exact n) })
          ∧ (∀ err, remoteRes entries remote j = .error err →
              (claude_tokenize_all entries remote order results)[j]?
                = results[j]?))
      ∧ (∀ order', order'.Perm (textIndices entries) →
          claude_tokenize_all entries remote order' results
            = claude_tokenize_all entries remote order results) := by
  intro entries remote order results hperm
  have hnodup : order.Nodup := hperm.nodup_iff.2 (textIndices_nodup entries)
  refine ⟨applyRemote_length _ results, ?_, ?_, ?_, ?_⟩
  · intro j r r' hr hr'
    have h := applyRemote_frame
      (order.map (fun idx => (idx, remoteRes entries remote idx))) results j
    rw [hr] at h
    rw [show (claude_tokenize_all entries remote order results)[j]?
        = (applyRemote results
            (order.map (fun idx => (idx, remoteRes entries remote idx))))[j]?
      from rfl] at hr'
    rw [hr'] at h
    exact ⟨h.1, h.2.1, h.2.2⟩
  · intro j hj
    have hjo : j ∉ order := fun hmem => hj (hperm.mem_iff.1 hmem)
    exact applyRemote_get_of_not_mem _ results j (fun c hc => by
      obtain ⟨i, hi, rfl⟩ := List.mem_map.1 hc
      exact fun hh => hjo (hh ▸ hi))
  · intro j hj
    have hjo : j ∈ order := hperm.mem_iff.2 hj
    have hget := applyRemote_map_get (f := remoteRes entries remote) hnodup hjo results
    constructor
    · intro n hn r hr
      rw [show claude_tokenize_all entries remote order results
          = applyRemote results
              (order.map (fun idx => (idx, remoteRes entries remote idx)))
        from rfl, hget, writeSlot_get_self, hn, hr]
    · intro err herr
      rw [show claude_tokenize_all entries remote order results
          = applyRemote results
              (order.map (fun idx => (idx, remoteRes entries remote idx)))
        from rfl, hget, herr]
      rfl
  · intro order' hperm'
    exact applyRemote_map_perm (hperm'.trans hperm.symm) results

theorem C9_phase2_frame_witness :
    (claude_tokenize_all [⟨"a.rs", .Text, some [9]⟩] (fun c => .ok c.length)
        [0] [⟨"a.rs", .Text, TokMap.empty⟩])[0]?
      = some ⟨"a.rs", .Text, TokMap.empty.insert .Claude (.Exact 1)⟩ :=
  ((C9_phase2_frame [⟨"a.rs", .Text, some [9]⟩] (fun c => .ok c.length)
      [0] [⟨"a.rs", .Text, TokMap.empty⟩] (by decide)).2.2.2.1
    0 (by decide)).1 1 rfl ⟨"a.rs", .Text, TokMap.empty⟩ rfl

/-- C10 (implicit): a `Text` entry whose content field is absent is
tokenized with the empty string substituted rather than failing: Phase 1
runs the counters on empty content (a counter returning 0 records
`Exact 0` or `from_approx 0 = Approx 0 2` by its approximateness), the
remote request for such an entry carries the empty content, and the file
still appears in the results. -/
theorem C10_absent_content :
    ∀ (locals : List LocalCounter) (e : FileEntry),
      e.kind = .Text → e.content = none →
      contentOf e = []
      ∧ phase1Entry locals e = ⟨e.rel_path, .Text, phase1Counts locals []⟩
      ∧ ((locals.map LocalCounter.id).Nodup → ∀ tok ∈ locals,
          tok.count_tokens [] = .ok 0 →
          (phase1Counts locals []).get tok.id
            = some (if tok.is_approximate then .from_approx 0 else .Exact 0))
      ∧ TokenCount.from_approx 0 = .Approx 0 2
      ∧ (∀ (entries : List FileEntry)
          (remote : List Nat → Except TokenizeError Nat) (i : Nat),
          entries[i]? = some e → remoteRes entries remote i = remote [])
      ∧ (tokenize_entries locals none [e]).length = 1
      ∧ (∃ r, (tokenize_entries locals none [e])[0]? = some r
          ∧ r.rel_path = e.rel_path) := by
  intro locals e hkind hcontent
  obtain ⟨rp, k, c⟩ := e
  have hkT : k = .Text := hkind
  have hcn : c = none := hcontent
  subst hkT hcn
  have hco : contentOf ⟨rp, .Text, none⟩ = [] := rfl
  refine ⟨hco, rfl, ?_, by decide, ?_, rfl,
    ⟨phase1Entry locals ⟨rp, .Text, none⟩, rfl, rfl⟩⟩
  · intro hnd tok htok hcount
    rw [phase1Counts, phase1Fold_get [] locals TokMap.empty tok htok hnd, hcount]
  · intro entries remote i hi
    rw [remoteRes, hi]
    rfl

theorem C10_absent_content_witness :
    (phase1Counts [⟨.Ctoc, true, fun c => .ok c.length⟩] []).get .Ctoc
      = some (.from_approx 0) := by
  have h := (C10_absent_content [⟨.Ctoc, true, fun c => .ok c.length⟩]
      ⟨"empty.rs", .Text, none⟩ rfl rfl).2.2.1 (by decide)
      ⟨.Ctoc, true, fun c => .ok c.length⟩ (List.mem_cons_self _ _) rfl
  simpa using h

end Treetok
